import Mathlib

/-!
Verification of the llm-over-dns core against its natural-language
specification.

The program's strings are modelled as `List Char` (Python `str` values,
sequences of Unicode code points) and byte strings as `List Nat`
(Python `bytes`, one entry per byte).  All definitions are shallow
embeddings of the functions in `src/utils/text_formatting.py` and
`src/main.py`; fallible steps (base64 decoding, ASCII encoding) return
`Except`, mirroring the `try`/`except` structure of the source.
-/

namespace LlmOverDns

/-- Model of a Python `str`: a list of Unicode code points. -/
abbrev Str := List Char

/-- Model of a Python `bytes` value: a list of byte values. -/
abbrev ByteStr := List Nat

/-! ## Whitespace splitting and joining (Python `str.split()` / `" ".join`) -/

/-- Auxiliary scanner for `splitWs`; `acc` holds the current word reversed. -/
def splitWsAux : Str → Str → List Str
  | [], acc => if acc = [] then [] else [acc.reverse]
  | c :: rest, acc =>
    if c.isWhitespace then
      if acc = [] then splitWsAux rest [] else acc.reverse :: splitWsAux rest []
    else splitWsAux rest (c :: acc)

/-- Model of Python `text.split()` with no separator: split on runs of
whitespace, discarding empty pieces. -/
def splitWs (s : Str) : List Str := splitWsAux s []

/-- Model of Python `" ".join(words)`. -/
def joinSpace : List Str → Str
  | [] => []
  | [w] => w
  | w :: x :: ws => w ++ ' ' :: joinSpace (x :: ws)

/-! ## The TXT chunker, `chunk_text_for_txt_record` -/

/-- The loop state of `chunk_text_for_txt_record`: finished chunks, the
words accumulated for the current chunk, and the running length
(`current_len` in the source, Python `len` of the joined current chunk). -/
structure CState where
  chunks : List Str
  current : List Str
  current_len : Nat

/-- `add_len` of one loop iteration: the word's length plus a separating
space when the current chunk is non-empty. -/
def chunkAddLen (st : CState) (w : Str) : Nat :=
  (if st.current = [] then 0 else 1) + w.length

/-- One iteration of the `for word in text.split()` loop of
`chunk_text_for_txt_record` (src/utils/text_formatting.py lines 15-27). -/
def chunkStep (m : Int) (st : CState) (w : Str) : CState :=
  if (st.current_len + chunkAddLen st w : Int) > m then
    { chunks := st.chunks ++ [joinSpace st.current]
      current := [w]
      current_len := w.length }
  else
    { chunks := st.chunks
      current := st.current ++ [w]
      current_len := st.current_len + chunkAddLen st w }

/-- Shallow embedding of `chunk_text_for_txt_record(text, max_chunk_bytes)`
(src/utils/text_formatting.py lines 4-30).  Note that the source measures
Python `len` — characters, not encoded bytes. -/
def chunk_text_for_txt_record (text : Str) (max_chunk_bytes : Int) : List Str :=
  if text = [] then [[]]
  else
    let st := (splitWs text).foldl (chunkStep max_chunk_bytes) ⟨[], [], 0⟩
    let chunks := if st.current = [] then st.chunks
                  else st.chunks ++ [joinSpace st.current]
    if chunks = [] then [[]] else chunks

/-- Byte length of a string once UTF-8 encoded (used only to state the
byte-budget reading of the specification). -/
def utf8Len (s : Str) : Nat := (s.map Char.utf8Size).sum

/-! ## The answer sanitizer (`LLMResolver.llm_answer`, src/main.py lines 31-47) -/

/-- Fuelled scanner implementing Python `s.replace(p, r)`: scan left to
right; at each position, if the needle `p` is a prefix, emit `r` and skip
past the needle, otherwise emit one character.  One unit of fuel is spent
per step and every step consumes at least one character, so
`fuel = s.length` never runs out. -/
def replaceStrFuel (p r : Str) : Nat → Str → Str
  | _, [] => []
  | 0, s => s
  | fuel + 1, c :: rest =>
    if p.isPrefixOf (c :: rest) then
      r ++ replaceStrFuel p r fuel ((c :: rest).drop p.length)
    else
      c :: replaceStrFuel p r fuel rest

/-- Model of Python `s.replace(p, r)` for a non-empty needle `p` (every
`replace` in this program has a non-empty first argument). -/
def replaceStr (p r s : Str) : Str :=
  if p = [] then s else replaceStrFuel p r s.length s

/-- The first `.replace` needle in `llm_answer`.  In the source the line
`answer.replace(""", "'").replace(""", "'")` parses as a single call
whose first argument is the triple-quoted string spanning the middle of
the line, i.e. the fifteen characters between the two `"""` tokens:
comma, space, double quote, apostrophe, double quote, closing paren,
`.replace` and an opening paren. -/
def needle1 : Str :=
  [',', ' ', '"', '\'', '"', ')', '.', 'r', 'e', 'p', 'l', 'a', 'c', 'e', '(']

/-- The chained `.replace` calls of `llm_answer` (src/main.py lines 36-43):
one replace of `needle1` by an apostrophe, two self-replacements of `"`,
then the em dash, en dash and ellipsis substitutions. -/
def punctSub (s : Str) : Str :=
  let s1 := replaceStr needle1 ['\''] s
  let s2 := replaceStr ("\"".data) ("\"".data) s1
  let s3 := replaceStr ("\"".data) ("\"".data) s2
  let s4 := replaceStr ("—".data) ("--".data) s3
  let s5 := replaceStr ("–".data) ("-".data) s4
  replaceStr ("…".data) ("...".data) s5

/-- Model of Python `s.rstrip()`: drop trailing whitespace. -/
def rstrip (s : Str) : Str := (s.reverse.dropWhile Char.isWhitespace).reverse

/-- Model of the Python slice `s[:k]`, including the negative-index case
(`k < 0` keeps all but the last `-k` characters). -/
def pyTake (k : Int) (s : Str) : Str :=
  s.take (if k < 0 then ((s.length : Int) + k).toNat else k.toNat)

/-- The pure post-processing of `LLMResolver.llm_answer` (src/main.py
lines 36-47): punctuation substitution followed by optional truncation to
`max_output_chars`. -/
def sanitize (text : Str) (maxChars : Int) : Str :=
  let answer := punctSub text
  if maxChars > 0 ∧ (answer.length : Int) > maxChars then
    rstrip (pyTake (maxChars - 10) answer) ++ ("...".data)
  else answer

/-- An ASCII string whose image under the first `.replace` contains a
fresh occurrence of `needle1`: the needle's own apostrophe character sits
at index 3, so wrapping a copy of the needle in the needle's first three
and last eleven characters recreates it after replacement. -/
def needleSeed : Str := needle1.take 3 ++ needle1 ++ needle1.drop 4

/-! ## UTF-8 decoding with replacement (Python `bytes.decode("utf-8", errors="replace")`) -/

/-- The Unicode replacement character U+FFFD. -/
def replChar : Char := Char.ofNat 0xFFFD

/-- Is `b` a UTF-8 continuation byte? -/
def isCont (b : Nat) : Bool := 0x80 ≤ b && b ≤ 0xBF

/-- Valid second byte after a three-byte lead (excludes overlong forms and
surrogates, as CPython's strict UTF-8 validation does). -/
def cont2ok3 (b1 b2 : Nat) : Bool :=
  if b1 = 0xE0 then 0xA0 ≤ b2 && b2 ≤ 0xBF
  else if b1 = 0xED then 0x80 ≤ b2 && b2 ≤ 0x9F
  else isCont b2

/-- Valid second byte after a four-byte lead (excludes overlong forms and
code points above U+10FFFF). -/
def cont2ok4 (b1 b2 : Nat) : Bool :=
  if b1 = 0xF0 then 0x90 ≤ b2 && b2 ≤ 0xBF
  else if b1 = 0xF4 then 0x80 ≤ b2 && b2 ≤ 0x8F
  else isCont b2

/-- Model of Python `raw.decode("utf-8", errors="replace")`: total UTF-8
decoding where each maximal invalid subpart becomes one U+FFFD. -/
def utf8DecodeReplace : List Nat → Str
  | [] => []
  | b1 :: rest =>
    if b1 ≤ 0x7F then Char.ofNat b1 :: utf8DecodeReplace rest
    else if 0xC2 ≤ b1 && b1 ≤ 0xDF then
      match rest with
      | [] => [replChar]
      | b2 :: rest2 =>
        if isCont b2 then
          Char.ofNat ((b1 - 0xC0) * 64 + (b2 - 0x80)) :: utf8DecodeReplace rest2
        else replChar :: utf8DecodeReplace (b2 :: rest2)
    else if 0xE0 ≤ b1 && b1 ≤ 0xEF then
      match rest with
      | [] => [replChar]
      | b2 :: rest2 =>
        if cont2ok3 b1 b2 then
          match rest2 with
          | [] => [replChar]
          | b3 :: rest3 =>
            if isCont b3 then
              Char.ofNat ((b1 - 0xE0) * 4096 + (b2 - 0x80) * 64 + (b3 - 0x80)) ::
                utf8DecodeReplace rest3
            else replChar :: utf8DecodeReplace (b3 :: rest3)
        else replChar :: utf8DecodeReplace (b2 :: rest2)
    else if 0xF0 ≤ b1 && b1 ≤ 0xF4 then
      match rest with
      | [] => [replChar]
      | b2 :: rest2 =>
        if cont2ok4 b1 b2 then
          match rest2 with
          | [] => [replChar]
          | b3 :: rest3 =>
            if isCont b3 then
              match rest3 with
              | [] => [replChar]
              | b4 :: rest4 =>
                if isCont b4 then
                  Char.ofNat ((b1 - 0xF0) * 262144 + (b2 - 0x80) * 4096 +
                      (b3 - 0x80) * 64 + (b4 - 0x80)) :: utf8DecodeReplace rest4
                else replChar :: utf8DecodeReplace (b4 :: rest4)
            else replChar :: utf8DecodeReplace (b3 :: rest3)
        else replChar :: utf8DecodeReplace (b2 :: rest2)
    else replChar :: utf8DecodeReplace rest

/-! ## Base64url decoding (the `b64-` feature of `extract_api_key_and_question`) -/

/-- Value of one base64 alphabet character. -/
def b64Val (c : Char) : Option Nat :=
  if 'A' ≤ c ∧ c ≤ 'Z' then some (c.toNat - 65)
  else if 'a' ≤ c ∧ c ≤ 'z' then some (c.toNat - 97 + 26)
  else if '0' ≤ c ∧ c ≤ '9' then some (c.toNat - 48 + 52)
  else if c = '+' then some 62
  else if c = '/' then some 63
  else none

/-- Turn a stream of 6-bit values into bytes: each quad gives three bytes,
a leftover of two or three values gives one or two bytes (extra low bits
are discarded, as the library decoder does). -/
def b64DecodeVals : List Nat → List Nat
  | [] => []
  | [_] => []
  | [a, b] => [a * 4 + b / 16]
  | [a, b, c] => [a * 4 + b / 16, (b % 16) * 16 + c / 4]
  | a :: b :: c :: d :: rest =>
    (a * 4 + b / 16) :: ((b % 16) * 16 + c / 4) :: ((c % 4) * 64 + d) ::
      b64DecodeVals rest

/-- Character-wise scanner of the library call `binascii.a2b_base64`
(legacy mode, as used by `base64.b64decode` with `validate=False`):
`pending` holds the 6-bit values of the current quad (at most three),
`pads` the run of padding seen so far.  Characters outside the alphabet
are skipped without touching `pads`; a data character resets `pads`; a
`=` while fewer than two data characters are pending is dropped;
otherwise `=` increments `pads`, and once the quad is completed by
padding, decoding stops and the rest of the input is ignored.  Input
ending with a partially filled quad raises `binascii.Error` (`.error`). -/
def a2bAux : List Nat → Nat → Str → Except Unit (List Nat)
  | pending, _, [] => if pending = [] then .ok [] else .error ()
  | pending, pads, c :: rest =>
    if c = '=' then
      if 2 ≤ pending.length then
        if 4 ≤ pending.length + pads + 1 then .ok (b64DecodeVals pending)
        else a2bAux pending (pads + 1) rest
      else a2bAux pending pads rest
    else
      match b64Val c with
      | none => a2bAux pending pads rest
      | some v =>
        if pending.length = 3 then
          match a2bAux [] 0 rest with
          | .error e => .error e
          | .ok bs => .ok (b64DecodeVals (pending ++ [v]) ++ bs)
        else a2bAux (pending ++ [v]) 0 rest

/-- Model of `base64.b64decode(s)` with `validate=False`. -/
def b64decode (s : Str) : Except Unit (List Nat) := a2bAux [] 0 s

/-- Model of Python `s.encode("ascii")`: fails (raises
`UnicodeEncodeError`) when any character is outside ASCII. -/
def asciiEncode (s : Str) : Except Unit ByteStr :=
  if s.all (fun c => c.toNat ≤ 127) then .ok (s.map Char.toNat) else .error ()

/-- The `-_ → +/` translation performed by `base64.urlsafe_b64decode`. -/
def urlsafeTranslate (s : Str) : Str :=
  s.map (fun c => if c = '-' then '+' else if c = '_' then '/' else c)

/-- The padding added before decoding: `"=" * (-len(enc) % 4)`. -/
def b64Pad (enc : Str) : Str := List.replicate ((4 - enc.length % 4) % 4) '='

/-- The body of the `try:` block of the `b64-` branch
(src/utils/text_formatting.py lines 71-77): pad, encode as ASCII bytes,
and feed to `base64.urlsafe_b64decode`.  ASCII characters correspond
one-to-one to their bytes, so the decoder works on the character list. -/
def b64TryDecode (enc : Str) : Except Unit (List Nat) :=
  match asciiEncode (enc ++ b64Pad enc) with
  | .error e => .error e
  | .ok _ => b64decode (urlsafeTranslate (enc ++ b64Pad enc))

/-! ## The label decoder, `extract_api_key_and_question`
(src/utils/text_formatting.py lines 33-92) -/

/-- The `key-` prefix marking an access-token label. -/
def keyPrefix : Str := ['k', 'e', 'y', '-']

/-- The `b64-` prefix marking a base64url-encoded label. -/
def b64Prefix : Str := ['b', '6', '4', '-']

/-- Decoding of one raw label:
`s = raw.decode("utf-8", errors="replace")`.  (`errors="replace"` never
raises, so the surrounding `try`/`except` in the source is inert.) -/
def decodeLabel (raw : ByteStr) : Str := utf8DecodeReplace raw

/-- Model of Python `s.replace("_", " ")`. -/
def underscoreToSpace (s : Str) : Str := replaceStr ("_".data) (" ".data) s

/-- The per-label token computation of the loop body for a non-`key-`
label: the `b64-` branch with its `try`/`except` (on success the decoded
text is appended unchanged and the loop continues; on failure control
falls through), else underscore-to-space replacement. -/
def labelToken (s : Str) : Str :=
  if b64Prefix.isPrefixOf s then
    match b64TryDecode (s.drop 4) with
    | .ok bs => utf8DecodeReplace bs
    | .error _ => underscoreToSpace s
  else underscoreToSpace s

/-- Tokens of a list of labels, in label order. -/
def labelTokens (ls : List ByteStr) : List Str :=
  ls.map (fun raw => labelToken (decodeLabel raw))

/-- Dropping of the trailing empty root label:
`if labels and labels[-1] == b"": labels = labels[:-1]`. -/
def stripRoot (labels : List ByteStr) : List ByteStr :=
  if labels.getLast? = some [] then labels.dropLast else labels

/-- The labels still contributing to the question once the root label and
a leading `key-` token label are removed. -/
def remainingLabels (labels : List ByteStr) : List ByteStr :=
  match stripRoot labels with
  | [] => []
  | first :: rest =>
    if keyPrefix.isPrefixOf (decodeLabel first) then rest else first :: rest

/-- The final join of `extract_api_key_and_question` (lines 87-90): join
tokens with single spaces, except that a single token containing a space
is returned verbatim. -/
def finalJoin (parts : List Str) : Str :=
  match parts with
  | [p] => if ' ' ∈ p then p else joinSpace parts
  | _ => joinSpace parts

/-- Shallow embedding of `extract_api_key_and_question(qname)`
(src/utils/text_formatting.py lines 33-92), taking the query name as its
list of raw byte-string labels.  The `i == 0` check of the source is
rendered by treating the head of the stripped label list specially. -/
def extract_api_key_and_question (qnameLabels : List ByteStr) : Option Str × Str :=
  let labels := stripRoot qnameLabels
  let state : Option Str × List Str :=
    match labels with
    | [] => (none, [])
    | first :: rest =>
      let s0 := decodeLabel first
      if keyPrefix.isPrefixOf s0 then
        (some (s0.drop 4), labelTokens rest)
      else
        (none, labelTokens (first :: rest))
  (state.1, finalJoin state.2)

/-- Byte string of an ASCII text, for stating concrete examples. -/
def bytesOfAscii (s : String) : ByteStr := s.data.map Char.toNat

/-! ## The resolution state machine (`LLMResolver.resolve`, src/main.py lines 49-85) -/

/-- The DNS response codes this resolver produces. -/
inductive RCode where
  | NOERROR
  | NOTIMP
  | SERVFAIL
  | REFUSED
deriving DecidableEq

/-- The observable content of the reply built by `resolve`: the response
code and the list of answer records, each carrying its TXT chunk set. -/
structure Reply where
  rcode : RCode
  answers : List (List Str)
deriving DecidableEq

/-- `dnslib`'s code for a TXT query type. -/
def QTYPE_TXT : Nat := 16

/-- An incoming query, as seen by `resolve`: the name's labels and the
query-type code. -/
structure DNSQuestion where
  qname : List ByteStr
  qtype : Nat

/-- The immutable configuration held by `LLMResolver`. -/
structure ResolverConfig where
  max_output_chars : Int
  require_api_key : Bool

/-- Python truthiness of the optional `DNS_API_KEY` environment value:
`not DNS_API_KEY` is true for `None` and for the empty string. -/
def optFalsy : Option Str → Bool
  | none => true
  | some s => s.isEmpty

/-- Shallow embedding of `LLMResolver.resolve` (src/main.py lines 49-85).
The external `generate_with_provider` call is a parameter `backend` that
may fail with a provider error `ε`; a backend failure propagates
(`.error`), every other path returns a reply.  `llm_answer`'s
post-processing is `sanitize` and the chunker is called with a 200-byte
budget, as in the source. -/
def resolve {ε : Type} (cfg : ResolverConfig) (dns_api_key : Option Str)
    (backend : Str → Except ε Str) (q : DNSQuestion) : Except ε Reply :=
  if q.qtype ≠ QTYPE_TXT then .ok ⟨.NOTIMP, []⟩
  else
    let pq := extract_api_key_and_question q.qname
    let proceed : Unit → Except ε Reply := fun _ =>
      match backend pq.2 with
      | .error e => .error e
      | .ok raw =>
        let answer := sanitize raw cfg.max_output_chars
        .ok ⟨.NOERROR, [chunk_text_for_txt_record answer 200]⟩
    if cfg.require_api_key then
      if optFalsy dns_api_key then .ok ⟨.SERVFAIL, []⟩
      else if pq.1 ≠ dns_api_key then .ok ⟨.REFUSED, []⟩
      else proceed ()
    else proceed ()

/-! ## Predicates used by the verification -/

/-- A string of ASCII characters only. -/
def asciiStr (s : Str) : Prop := ∀ c ∈ s, c.toNat ≤ 127

instance (s : Str) : Decidable (asciiStr s) := List.decidableBAll _ s

/-- Loop invariant for the budget claim: `current_len` tracks the length
of the joined current chunk; the current chunk fits the budget unless it
is a single input word; every finished chunk fits the budget or is a
single input word. -/
def ChunkInv (m : Int) (words : List Str) (st : CState) : Prop :=
  st.current_len = (joinSpace st.current).length ∧
  ((st.current_len : Int) ≤ m ∨ ∃ w ∈ words, st.current = [w]) ∧
  (∀ c ∈ st.chunks, ((c.length : Int) ≤ m ∨ c ∈ words))

/-- Loop invariant for the no-word-splitting claim: the finished chunks
are the space-joins of consecutive groups of the processed words, and the
current chunk holds the remaining processed words. -/
def GroupInv (proc : List Str) (st : CState) : Prop :=
  ∃ gs : List (List Str),
    st.chunks = gs.map joinSpace ∧ gs.flatten ++ st.current = proc

/-! ## Helper lemmas about the chunker -/

/-- The final `if not chunks: chunks = [""]` in the chunker guarantees a
non-empty result. -/
theorem ite_nil_repair (l : List Str) :
    (if l = [] then ([[]] : List Str) else l) ≠ [] := by
  split
  · simp
  · assumption

/-- The chunker never returns an empty list. -/
theorem chunk_ne_nil (text : Str) (m : Int) :
    chunk_text_for_txt_record text m ≠ [] := by
  unfold chunk_text_for_txt_record
  split
  · simp
  · exact ite_nil_repair _

/-- Folding the chunk loop only ever appends to the finished-chunk list. -/
theorem foldl_chunks_extend (m : Int) :
    ∀ (rem : List Str) (st : CState),
      ∃ ext, (rem.foldl (chunkStep m) st).chunks = st.chunks ++ ext := by
  intro rem
  induction rem with
  | nil => exact fun st => ⟨[], by simp⟩
  | cons w rem ih =>
    intro st
    obtain ⟨ext, hext⟩ := ih (chunkStep m st w)
    rw [List.foldl_cons, hext]
    unfold chunkStep
    split
    · exact ⟨[joinSpace st.current] ++ ext, by simp⟩
    · exact ⟨ext, rfl⟩

/-! ## Theorems for the frozen claims -/

/-- C1: for every incoming query, `resolve` selects exactly one terminal
outcome by the documented table: non-TXT queries get NOTIMP; with
enforcement enabled and no configured secret, SERVFAIL; with enforcement
enabled and a mismatched token, REFUSED; otherwise, when the backend
returns a string, NOERROR with the TXT answer attached.  In the NOTIMP,
SERVFAIL and REFUSED cases no answer record is attached and the result is
`.ok` (no exception propagates, and the backend is not consulted). -/
theorem resolve_outcome_table {ε : Type} (cfg : ResolverConfig)
    (key : Option Str) (backend : Str → Except ε Str) (q : DNSQuestion) :
    (q.qtype ≠ QTYPE_TXT →
      resolve cfg key backend q = .ok ⟨.NOTIMP, []⟩) ∧
    (q.qtype = QTYPE_TXT → cfg.require_api_key = true → optFalsy key = true →
      resolve cfg key backend q = .ok ⟨.SERVFAIL, []⟩) ∧
    (q.qtype = QTYPE_TXT → cfg.require_api_key = true → optFalsy key = false →
      (extract_api_key_and_question q.qname).1 ≠ key →
      resolve cfg key backend q = .ok ⟨.REFUSED, []⟩) ∧
    (∀ a : Str, q.qtype = QTYPE_TXT →
      (cfg.require_api_key = false ∨
        (optFalsy key = false ∧ (extract_api_key_and_question q.qname).1 = key)) →
      backend (extract_api_key_and_question q.qname).2 = .ok a →
      resolve cfg key backend q =
        .ok ⟨.NOERROR,
          [chunk_text_for_txt_record (sanitize a cfg.max_output_chars) 200]⟩) := by
  refine ⟨?_, ?_, ?_, ?_⟩
  · intro h
    simp [resolve, h]
  · intro h1 h2 h3
    simp [resolve, h1, h2, h3]
  · intro h1 h2 h3 h4
    simp [resolve, h1, h2, h3, h4]
  · intro a h1 h2 h3
    rcases h2 with h2 | ⟨h2a, h2b⟩
    · simp [resolve, h1, h2, h3]
    · simp [resolve, h1, h2a, h2b, h3]

/-- Witness for C1 at concrete inputs: a TXT query with enforcement on, a
configured secret and a mismatched token terminates in REFUSED. -/
theorem resolve_outcome_table_witness :
    resolve (ε := Unit) ⟨800, true⟩ (some ("s3cret".data))
      (fun _ => .ok ("hi".data)) ⟨[bytesOfAscii "what", []], 16⟩ =
    .ok ⟨.REFUSED, []⟩ :=
  (resolve_outcome_table ⟨800, true⟩ (some ("s3cret".data))
    (fun _ => .ok ("hi".data)) ⟨[bytesOfAscii "what", []], 16⟩).2.2.1
    rfl rfl (by decide) (by decide)

/-- C8: the chunker always returns a non-empty sequence, the empty text
yields exactly one chunk (the empty string), and consequently every
NOERROR resolution attaches exactly one answer record with a non-empty
chunk set. -/
theorem chunk_nonempty_and_noerror_answer :
    (∀ (text : Str) (m : Int), chunk_text_for_txt_record text m ≠ []) ∧
    (∀ m : Int, chunk_text_for_txt_record [] m = [[]]) ∧
    (∀ (ε : Type) (cfg : ResolverConfig) (key : Option Str)
        (backend : Str → Except ε Str) (q : DNSQuestion) (r : Reply),
      resolve cfg key backend q = .ok r → r.rcode = RCode.NOERROR →
      ∃ cs, r.answers = [cs] ∧ cs ≠ []) := by
  refine ⟨chunk_ne_nil, ?_, ?_⟩
  · intro m
    simp [chunk_text_for_txt_record]
  · intro ε cfg key backend q r hres hrc
    unfold resolve at hres
    by_cases hq : q.qtype ≠ QTYPE_TXT
    · rw [if_pos hq] at hres
      obtain rfl := (Except.ok.inj hres)
      exact absurd hrc (by simp)
    · rw [if_neg hq] at hres
      dsimp only at hres
      by_cases hreq : cfg.require_api_key
      · rw [if_pos hreq] at hres
        by_cases hfal : optFalsy key = true
        · rw [if_pos hfal] at hres
          obtain rfl := (Except.ok.inj hres)
          exact absurd hrc (by simp)
        · rw [if_neg hfal] at hres
          by_cases hne : (extract_api_key_and_question q.qname).1 ≠ key
          · rw [if_pos hne] at hres
            obtain rfl := (Except.ok.inj hres)
            exact absurd hrc (by simp)
          · rw [if_neg hne] at hres
            cases hbk : backend (extract_api_key_and_question q.qname).2 with
            | error e => rw [hbk] at hres; exact absurd hres (by simp)
            | ok a =>
              rw [hbk] at hres
              obtain rfl := (Except.ok.inj hres)
              exact ⟨_, rfl, chunk_ne_nil _ _⟩
      · rw [if_neg hreq] at hres
        cases hbk : backend (extract_api_key_and_question q.qname).2 with
        | error e => rw [hbk] at hres; exact absurd hres (by simp)
        | ok a =>
          rw [hbk] at hres
          obtain rfl := (Except.ok.inj hres)
          exact ⟨_, rfl, chunk_ne_nil _ _⟩

/-- Witness for C8 at concrete inputs: a successful TXT resolution without
access control carries one non-empty chunk set. -/
theorem chunk_nonempty_and_noerror_answer_witness :
    ∃ cs, (Reply.mk RCode.NOERROR [["hi".data]]).answers = [cs] ∧ cs ≠ [] :=
  chunk_nonempty_and_noerror_answer.2.2 Unit ⟨800, false⟩ none
    (fun _ => .ok ("hi".data)) ⟨[bytesOfAscii "what", []], 16⟩
    ⟨RCode.NOERROR, [["hi".data]]⟩ rfl rfl

/-- C10: if the first whitespace-separated word of the text is longer than
the chunk budget, the returned sequence starts with an empty chunk,
produced by closing the still-empty accumulator. -/
theorem chunk_overlong_first_word (text : Str) (m : Int) (w : Str)
    (ws : List Str) (h : splitWs text = w :: ws)
    (hw : (w.length : Int) > m) :
    (chunk_text_for_txt_record text m).head? = some [] := by
  have htext : text ≠ [] := by
    intro he
    rw [he] at h
    simp [splitWs, splitWsAux] at h
  have hstep : chunkStep m ⟨[], [], 0⟩ w = ⟨[[]], [w], w.length⟩ := by
    unfold chunkStep
    rw [if_pos]
    · simp [joinSpace]
    · simpa [chunkAddLen] using hw
  unfold chunk_text_for_txt_record
  rw [if_neg htext, h]
  dsimp only
  rw [List.foldl_cons, hstep]
  obtain ⟨ext, hext⟩ := foldl_chunks_extend m ws ⟨[[]], [w], w.length⟩
  have hcons : ∃ tail,
      (if (List.foldl (chunkStep m) ⟨[[]], [w], w.length⟩ ws).current = [] then
        (List.foldl (chunkStep m) ⟨[[]], [w], w.length⟩ ws).chunks
      else
        (List.foldl (chunkStep m) ⟨[[]], [w], w.length⟩ ws).chunks ++
          [joinSpace (List.foldl (chunkStep m) ⟨[[]], [w], w.length⟩ ws).current]) =
      [] :: tail := by
    rw [hext]
    split
    · exact ⟨ext, rfl⟩
    · exact ⟨ext ++ [joinSpace (List.foldl (chunkStep m) ⟨[[]], [w], w.length⟩ ws).current],
        by simp⟩
  obtain ⟨tail, htail⟩ := hcons
  rw [htail, if_neg (by simp)]
  rfl

/-- Witness for C10 at a concrete input: `chunk("abcd e", 3)` starts with
the empty chunk. -/
theorem chunk_overlong_first_word_witness :
    (chunk_text_for_txt_record ("abcd e".data) 3).head? = some [] :=
  chunk_overlong_first_word ("abcd e".data) 3 ("abcd".data) [['e']]
    (by decide) (by decide)

/-! ## Helper lemmas about the label decoder -/

/-- The access token returned by the decoder, as a function of the
stripped label list. -/
theorem extract_fst_eq (labels : List ByteStr) :
    (extract_api_key_and_question labels).1 =
      (match stripRoot labels with
       | [] => none
       | f :: _ =>
         if keyPrefix.isPrefixOf (decodeLabel f) then
           some ((decodeLabel f).drop 4)
         else none) := by
  unfold extract_api_key_and_question
  cases hs : stripRoot labels with
  | nil => rfl
  | cons f rest =>
    dsimp only
    split <;> rfl

/-- The question returned by the decoder is the final join of the tokens
of the remaining labels. -/
theorem extract_snd_eq (labels : List ByteStr) :
    (extract_api_key_and_question labels).2 =
      finalJoin (labelTokens (remainingLabels labels)) := by
  unfold extract_api_key_and_question remainingLabels
  cases hs : stripRoot labels with
  | nil => rfl
  | cons f rest =>
    dsimp only
    split <;> rfl

/-- A `key-`-prefixed text is not `b64-`-prefixed. -/
theorem not_b64_of_key {s : Str} (hk : keyPrefix.isPrefixOf s = true) :
    b64Prefix.isPrefixOf s = false := by
  obtain ⟨t, ht⟩ := List.isPrefixOf_iff_prefix.mp hk
  subst ht
  rfl

/-- C4: for every sequence of byte-string labels, whatever their byte
content, the decoder returns a (token, question) pair — it is a total
function whose fallible sub-operations (`encode("ascii")`,
`base64.urlsafe_b64decode`) are each caught, so no exception escapes —
and when zero labels remain after removing the root label and a leading
`key-` token label, the question is the empty string. -/
theorem extract_never_raises (labels : List ByteStr) :
    (extract_api_key_and_question labels =
      ((extract_api_key_and_question labels).1,
        (extract_api_key_and_question labels).2)) ∧
    (remainingLabels labels = [] →
      (extract_api_key_and_question labels).2 = []) := by
  refine ⟨rfl, ?_⟩
  intro h
  rw [extract_snd_eq, h]
  rfl

/-- Witness for C4 at a concrete input containing an invalid UTF-8 byte:
a query of just a `key-` label (with a raw `0xFF` byte) and the root
label yields the empty question. -/
theorem extract_never_raises_witness :
    (extract_api_key_and_question [[107, 101, 121, 45, 255], []]).2 = [] :=
  (extract_never_raises [[107, 101, 121, 45, 255], []]).2 (by decide)

/-- C5: the decoder returns an access token iff the first label after
root-stripping starts with `key-`; in that case the token is the rest of
that label and the question is built from the remaining labels only; a
`key-`-prefixed text in any later position is an ordinary label
(underscore replacement applies to it); and the concrete example from the
specification. -/
theorem key_label_rules (labels : List ByteStr) :
    ((extract_api_key_and_question labels).1.isSome = true ↔
      ∃ f rest, stripRoot labels = f :: rest ∧
        keyPrefix.isPrefixOf (decodeLabel f) = true) ∧
    (∀ f rest, stripRoot labels = f :: rest →
      keyPrefix.isPrefixOf (decodeLabel f) = true →
      extract_api_key_and_question labels =
        (some ((decodeLabel f).drop 4), finalJoin (labelTokens rest))) ∧
    (∀ s : Str, keyPrefix.isPrefixOf s = true →
      labelToken s = underscoreToSpace s) ∧
    extract_api_key_and_question
      [bytesOfAscii "key-abc123", bytesOfAscii "what", bytesOfAscii "is",
        bytesOfAscii "life"] =
      (some ("abc123".data), "what is life".data) := by
  refine ⟨?_, ?_, ?_, by decide⟩
  · rw [extract_fst_eq]
    cases hs : stripRoot labels with
    | nil => simp
    | cons f rest =>
      dsimp only
      split
      · simp only [Option.isSome_some, true_iff]
        exact ⟨f, rest, rfl, by assumption⟩
      · simp only [Option.isSome_none, Bool.false_eq_true, false_iff]
        rintro ⟨f', rest', heq, hpre⟩
        obtain ⟨rfl, rfl⟩ : f' = f ∧ rest' = rest := by
          injection heq with h1 h2
          exact ⟨h1.symm, h2.symm⟩
        exact absurd hpre (by simp_all)
  · intro f rest hs hk
    unfold extract_api_key_and_question
    rw [hs]
    dsimp only
    rw [if_pos hk]
  · intro s hk
    unfold labelToken
    rw [if_neg]
    rw [not_b64_of_key hk]
    simp

/-- Witness for C5: applying the key-label rule at a concrete query. -/
theorem key_label_rules_witness :
    extract_api_key_and_question [bytesOfAscii "key-abc123", bytesOfAscii "what"] =
      (some ("abc123".data), finalJoin (labelTokens [bytesOfAscii "what"])) :=
  (key_label_rules [bytesOfAscii "key-abc123", bytesOfAscii "what"]).2.1
    (bytesOfAscii "key-abc123") [bytesOfAscii "what"] (by decide) (by decide)

/-- C6: for a `b64-`-prefixed label text, the remainder is padded with `=`
to a multiple of four and base64url-decoded; on success the UTF-8-decoded
bytes are the label's token exactly (no underscore replacement); on any
decode failure the original text falls through to underscore replacement;
and the concrete example from the specification holds with ordering
preserved. -/
theorem b64_label_rules (s enc : Str) (h : s = b64Prefix ++ enc) :
    ((enc ++ b64Pad enc).length % 4 = 0) ∧
    (∀ bs, b64TryDecode enc = .ok bs →
      labelToken s = utf8DecodeReplace bs) ∧
    (∀ e, b64TryDecode enc = .error e →
      labelToken s = underscoreToSpace s) ∧
    extract_api_key_and_question [bytesOfAscii "what_is", bytesOfAscii "b64-bGlmZQ"] =
      (none, "what is life".data) := by
  have hpre : b64Prefix.isPrefixOf (b64Prefix ++ enc) = true :=
    List.isPrefixOf_iff_prefix.mpr (List.prefix_append _ _)
  have hdrop : (b64Prefix ++ enc).drop 4 = enc :=
    List.drop_left' (by rfl)
  refine ⟨?_, ?_, ?_, by decide⟩
  · simp only [b64Pad, List.length_append, List.length_replicate]
    omega
  · intro bs hbs
    subst h
    unfold labelToken
    rw [if_pos hpre, hdrop, hbs]
  · intro e hbs
    subst h
    unfold labelToken
    rw [if_pos hpre, hdrop, hbs]

/-- Witness for C6: the label `b64-bGlmZQ` decodes to the exact bytes of
`life`. -/
theorem b64_label_rules_witness :
    labelToken ("b64-bGlmZQ".data) = utf8DecodeReplace [108, 105, 102, 101] :=
  (b64_label_rules ("b64-bGlmZQ".data) ("bGlmZQ".data) (by decide)).2.1
    [108, 105, 102, 101] rfl

/-- C7: the question is the space-join of the per-label tokens in label
order, except that a single token containing a space is returned
verbatim; and the single-label example `hello_world` yields
`hello world`. -/
theorem question_join_rules :
    (∀ labels : List ByteStr, (extract_api_key_and_question labels).2 =
      finalJoin (labelTokens (remainingLabels labels))) ∧
    (∀ p : Str, ' ' ∈ p → finalJoin [p] = p) ∧
    (∀ p : Str, ' ' ∉ p → finalJoin [p] = joinSpace [p]) ∧
    (∀ parts : List Str, parts.length ≠ 1 → finalJoin parts = joinSpace parts) ∧
    extract_api_key_and_question [bytesOfAscii "hello_world"] =
      (none, "hello world".data) := by
  refine ⟨extract_snd_eq, ?_, ?_, ?_, by decide⟩
  · intro p hp
    simp [finalJoin, hp]
  · intro p hp
    simp [finalJoin, hp]
  · intro parts hl
    match parts with
    | [] => rfl
    | [p] => exact absurd rfl hl
    | a :: b :: t => rfl

/-- Witness for C7: the single-token exception at a concrete input. -/
theorem question_join_rules_witness :
    finalJoin ["hello world".data] = "hello world".data :=
  question_join_rules.2.1 ("hello world".data) (by decide)

/-! ## The chunk-loop invariants for C2 -/

/-- Appending one word to a space-join. -/
theorem joinSpace_snoc (l : List Str) (w : Str) :
    joinSpace (l ++ [w]) = if l = [] then w else joinSpace l ++ ' ' :: w := by
  induction l with
  | nil => rfl
  | cons x l ih =>
    cases l with
    | nil => rfl
    | cons y l2 =>
      simp only [List.cons_append, List.append_eq, joinSpace] at ih ⊢
      rw [ih, if_neg (by simp), if_neg (by simp)]
      simp

/-- One loop iteration preserves `ChunkInv`. -/
theorem chunkStep_inv (m : Int) (words : List Str) (st : CState) (w : Str)
    (hw : w ∈ words) (h : ChunkInv m words st) :
    ChunkInv m words (chunkStep m st w) := by
  obtain ⟨h1, h2, h3⟩ := h
  unfold chunkStep
  split
  · refine ⟨by simp [joinSpace], Or.inr ⟨w, hw, rfl⟩, ?_⟩
    intro c hc
    rcases List.mem_append.mp hc with hc | hc
    · exact h3 c hc
    · simp only [List.mem_singleton] at hc
      subst hc
      rcases h2 with h2 | ⟨w', hw', hcur⟩
      · exact Or.inl (by rw [← h1]; exact h2)
      · exact Or.inr (by rw [hcur]; simpa [joinSpace] using hw')
  · rename_i hcond
    push_neg at hcond
    refine ⟨?_, Or.inl (by exact_mod_cast hcond), h3⟩
    rw [joinSpace_snoc]
    by_cases hc : st.current = []
    · have hz : st.current_len = 0 := by rw [h1, hc]; rfl
      simp [chunkAddLen, hc, hz]
    · rw [if_neg hc]
      simp only [List.length_append, List.length_cons]
      rw [h1, chunkAddLen, if_neg hc]
      omega

/-- The whole loop preserves `ChunkInv`. -/
theorem foldl_chunk_inv (m : Int) (words : List Str) :
    ∀ (rem : List Str) (st : CState), (∀ w ∈ rem, w ∈ words) →
      ChunkInv m words st → ChunkInv m words (rem.foldl (chunkStep m) st) := by
  intro rem
  induction rem with
  | nil => exact fun st _ h => h
  | cons w rem ih =>
    intro st hsub h
    rw [List.foldl_cons]
    exact ih _ (fun x hx => hsub x (List.mem_cons_of_mem _ hx))
      (chunkStep_inv m words st w (hsub w (List.mem_cons_self _ _)) h)

/-- One loop iteration preserves `GroupInv`. -/
theorem chunkStep_group (m : Int) (proc : List Str) (st : CState) (w : Str)
    (h : GroupInv proc st) : GroupInv (proc ++ [w]) (chunkStep m st w) := by
  obtain ⟨gs, hgs, hflat⟩ := h
  unfold chunkStep
  split
  · refine ⟨gs ++ [st.current], by simp [hgs], ?_⟩
    simp [List.flatten_append, ← hflat]
  · exact ⟨gs, hgs, by rw [← List.append_assoc, hflat]⟩

/-- The whole loop preserves `GroupInv`. -/
theorem foldl_chunk_group (m : Int) :
    ∀ (rem : List Str) (st : CState) (proc : List Str),
      GroupInv proc st → GroupInv (proc ++ rem) (rem.foldl (chunkStep m) st) := by
  intro rem
  induction rem with
  | nil => intro st proc h; simpa using h
  | cons w rem ih =>
    intro st proc h
    rw [List.foldl_cons]
    have h2 := ih (chunkStep m st w) (proc ++ [w]) (chunkStep_group m proc st w h)
    simpa [List.append_assoc] using h2

/-- Main chunker property: with a non-negative budget, every produced
chunk either fits the budget in characters or is a single input word, and
the chunks are the space-joins of a partition of the input's words. -/
theorem chunk_master (text : Str) (m : Int) (hm : 0 ≤ m) :
    (∀ c ∈ chunk_text_for_txt_record text m,
      ((c.length : Int) ≤ m ∨ c ∈ splitWs text)) ∧
    (∃ gs : List (List Str),
      chunk_text_for_txt_record text m = gs.map joinSpace ∧
      gs.flatten = splitWs text) := by
  by_cases htext : text = []
  · subst htext
    refine ⟨?_, ⟨[[]], by simp [chunk_text_for_txt_record, joinSpace], rfl⟩⟩
    intro c hc
    simp [chunk_text_for_txt_record] at hc
    subst hc
    exact Or.inl (by simpa using hm)
  · have hinv := foldl_chunk_inv m (splitWs text) (splitWs text) ⟨[], [], 0⟩
      (fun _ h => h) ⟨rfl, Or.inl (by simpa using hm), by simp⟩
    have hgrp := foldl_chunk_group m (splitWs text) ⟨[], [], 0⟩ [] ⟨[], rfl, rfl⟩
    obtain ⟨h1, h2, h3⟩ := hinv
    obtain ⟨gs, hgs, hflat⟩ := hgrp
    unfold chunk_text_for_txt_record
    rw [if_neg htext]
    dsimp only
    by_cases hcur : (List.foldl (chunkStep m) ⟨[], [], 0⟩ (splitWs text)).current = []
    · rw [if_pos hcur]
      rw [hcur, List.append_nil] at hflat
      by_cases hchl : (List.foldl (chunkStep m) ⟨[], [], 0⟩ (splitWs text)).chunks = []
      · rw [if_pos hchl]
        have hgsnil : gs = [] := by
          rw [hchl] at hgs
          exact (List.map_eq_nil_iff.mp hgs.symm)
        rw [hgsnil] at hflat
        refine ⟨?_, ⟨[[]], by simp [joinSpace], by simpa using hflat⟩⟩
        intro c hc
        simp only [List.mem_singleton] at hc
        subst hc
        exact Or.inl (by simpa using hm)
      · rw [if_neg hchl]
        exact ⟨h3, ⟨gs, hgs, hflat⟩⟩
    · rw [if_neg hcur]
      have hne : (List.foldl (chunkStep m) ⟨[], [], 0⟩ (splitWs text)).chunks ++
          [joinSpace (List.foldl (chunkStep m) ⟨[], [], 0⟩ (splitWs text)).current] ≠ [] := by
        simp
      rw [if_neg hne]
      constructor
      · intro c hc
        rcases List.mem_append.mp hc with hc | hc
        · exact h3 c hc
        · simp only [List.mem_singleton] at hc
          subst hc
          rcases h2 with h2 | ⟨w', hw', hcur'⟩
          · exact Or.inl (by rw [← h1]; exact h2)
          · exact Or.inr (by rw [hcur']; simpa [joinSpace] using hw')
      · refine ⟨gs ++ [(List.foldl (chunkStep m) ⟨[], [], 0⟩ (splitWs text)).current],
          by simp [hgs], by simpa using hflat⟩

/-- C2 (amended): with a positive budget, every produced chunk has
character length (Python `len`, the measure the code actually uses) at
most the budget, except a chunk that is a single over-budget input word;
no word is ever split across chunks (the chunk list is the space-join of
a partition of the word list, in order); and
`chunk("a b c", 3) = ["a b", "c"]`.  The specification's byte-length
reading fails on non-ASCII text — see the counterexample theorem. -/
theorem chunk_char_budget (text : Str) (m : Int) (hm : 0 < m) :
    (∀ c ∈ chunk_text_for_txt_record text m,
      ((c.length : Int) ≤ m ∨ c ∈ splitWs text)) ∧
    (∃ gs : List (List Str),
      chunk_text_for_txt_record text m = gs.map joinSpace ∧
      gs.flatten = splitWs text) ∧
    chunk_text_for_txt_record ("a b c".data) 3 = [['a', ' ', 'b'], ['c']] :=
  ⟨(chunk_master text m (le_of_lt hm)).1,
   (chunk_master text m (le_of_lt hm)).2, by decide⟩

/-- Counterexample to C2 as stated: with text `"é é"` and budget 3 the
code produces the single chunk `"é é"` (the loop counts characters, and
`é` is one character but two UTF-8 bytes), whose byte length is 5 > 3 and
which is not a single over-budget word. -/
theorem chunk_byte_budget_counterexample :
    ¬ (∀ c ∈ chunk_text_for_txt_record ("é é".data) 3,
        (utf8Len c : Int) ≤ 3 ∨
        ∃ w ∈ splitWs ("é é".data), c = w ∧ (utf8Len w : Int) > 3) := by
  decide

/-- Witness for C2 at a concrete input: the partition property at
`chunk("a b c", 3)`. -/
theorem chunk_char_budget_witness :
    ∃ gs : List (List Str),
      chunk_text_for_txt_record ("a b c".data) 3 = gs.map joinSpace ∧
      gs.flatten = splitWs ("a b c".data) :=
  (chunk_char_budget ("a b c".data) 3 (by decide)).2.1

/-! ## The sanitizer length bound for C3 -/

/-- Stripping trailing whitespace does not lengthen a string. -/
theorem rstrip_length_le (t : Str) : (rstrip t).length ≤ t.length := by
  unfold rstrip
  rw [List.length_reverse]
  calc (t.reverse.dropWhile Char.isWhitespace).length
      ≤ t.reverse.length := (List.dropWhile_suffix _).sublist.length_le
    _ = t.length := List.length_reverse t

/-- C3 (amended): when `10 ≤ maxChars` and the substituted text is longer
than `maxChars`, `sanitize` truncates to `maxChars - 10` characters,
strips trailing whitespace, appends `...`, and the result has length at
most `maxChars`; when `maxChars ≤ 0` no truncation occurs.  For
`0 < maxChars < 10` the Python slice `answer[:maxChars - 10]` has a
negative bound and the length guarantee fails — see the counterexample
theorem. -/
theorem sanitize_truncation (s : Str) (m : Int) :
    (10 ≤ m → ((punctSub s).length : Int) > m →
      sanitize s m = rstrip (pyTake (m - 10) (punctSub s)) ++ ("...".data) ∧
      ((sanitize s m).length : Int) ≤ m) ∧
    (m ≤ 0 → sanitize s m = punctSub s) := by
  constructor
  · intro h10 hlen
    have heq : sanitize s m =
        rstrip (pyTake (m - 10) (punctSub s)) ++ ("...".data) := by
      unfold sanitize
      rw [if_pos ⟨by omega, hlen⟩]
    refine ⟨heq, ?_⟩
    rw [heq]
    have hr : (rstrip (pyTake (m - 10) (punctSub s))).length ≤
        (pyTake (m - 10) (punctSub s)).length := rstrip_length_le _
    have ht : (pyTake (m - 10) (punctSub s)).length ≤ (m - 10).toNat := by
      unfold pyTake
      rw [if_neg (by omega)]
      exact List.length_take_le _ _
    rw [List.length_append]
    have hdots : ("...".data).length = 3 := rfl
    rw [hdots]
    omega
  · intro hm
    unfold sanitize
    rw [if_neg]
    rintro ⟨h1, _⟩
    omega

/-- Counterexample to C3 as stated: with `maxChars = 2 > 0` and input
`"aaa"` (length 3 > 2), the negative Python slice turns the truncation
into `"..."`, of length 3 > 2 — the claimed bound `≤ maxChars` fails. -/
theorem sanitize_truncation_counterexample :
    (0 : Int) < 2 ∧ ((punctSub ("aaa".data)).length : Int) > 2 ∧
    sanitize ("aaa".data) 2 = ("...".data) ∧
    ¬ ((sanitize ("aaa".data) 2).length : Int) ≤ 2 := by
  decide

set_option maxRecDepth 4096 in
/-- Witness for C3 at a concrete input: a 300-character text truncated to
`maxChars = 50` ends in `...` and fits the bound. -/
theorem sanitize_truncation_witness :
    (10 : Int) ≤ 50 ∧
    ((punctSub (List.replicate 300 'a')).length : Int) > 50 ∧
    (sanitize (List.replicate 300 'a') 50 =
      rstrip (pyTake (50 - 10) (punctSub (List.replicate 300 'a'))) ++
        ("...".data) ∧
      ((sanitize (List.replicate 300 'a') 50).length : Int) ≤ 50) :=
  ⟨by decide, by decide,
    (sanitize_truncation (List.replicate 300 'a') 50).1 (by decide) (by decide)⟩

/-! ## Fixed points of the substitution step, for C9 -/

/-- If the needle occurs nowhere, the scan leaves the string unchanged. -/
theorem replaceStrFuel_no_occ (p r : Str) :
    ∀ (fuel : Nat) (s : Str), ¬ p <:+: s → replaceStrFuel p r fuel s = s := by
  intro fuel
  induction fuel with
  | zero =>
    intro s _
    cases s <;> rfl
  | succ fuel ih =>
    intro s h
    cases s with
    | nil => rfl
    | cons c rest =>
      have hb : ¬ p.isPrefixOf (c :: rest) = true := fun hb =>
        h ((List.isPrefixOf_iff_prefix.mp hb).isInfix)
      have hrest : ¬ p <:+: rest := fun hinf =>
        h (hinf.trans (List.suffix_cons c rest).isInfix)
      simp only [replaceStrFuel, if_neg hb]
      rw [ih rest hrest]

/-- Replacing a non-empty needle by itself is the identity. -/
theorem replaceStrFuel_self (p : Str) (hp : p ≠ []) :
    ∀ (fuel : Nat) (s : Str), s.length ≤ fuel → replaceStrFuel p p fuel s = s := by
  intro fuel
  induction fuel with
  | zero =>
    intro s hlen
    cases s with
    | nil => rfl
    | cons c rest => simp at hlen
  | succ fuel ih =>
    intro s hlen
    cases s with
    | nil => rfl
    | cons c rest =>
      by_cases hb : p.isPrefixOf (c :: rest)
      · simp only [replaceStrFuel, if_pos hb]
        have hpre := List.isPrefixOf_iff_prefix.mp hb
        have happ := List.prefix_iff_eq_append.mp hpre
        have hplen : 1 ≤ p.length := by
          cases p with
          | nil => exact absurd rfl hp
          | cons a q => simp
        have hlen2 : ((c :: rest).drop p.length).length ≤ fuel := by
          rw [List.length_drop]
          simp only [List.length_cons] at hlen ⊢
          omega
        rw [ih _ hlen2]
        exact happ
      · simp only [replaceStrFuel, if_neg hb]
        have : rest.length ≤ fuel := by
          simp only [List.length_cons] at hlen
          omega
        rw [ih rest this]

/-- `replaceStr` with an absent needle is the identity. -/
theorem replaceStr_no_occ (p r s : Str) (h : ¬ p <:+: s) :
    replaceStr p r s = s := by
  unfold replaceStr
  split
  · rfl
  · exact replaceStrFuel_no_occ p r s.length s h

/-- `replaceStr` of a pattern by itself is the identity. -/
theorem replaceStr_self (p s : Str) : replaceStr p p s = s := by
  unfold replaceStr
  split
  · rfl
  · exact replaceStrFuel_self p (by assumption) s.length s le_rfl

/-- A pattern containing a character absent from `s` does not occur in
`s`. -/
theorem not_infix_of_not_mem {s p : Str} (c : Char) (hc : c ∈ p)
    (hs : c ∉ s) : ¬ p <:+: s := fun hin => hs (hin.sublist.subset hc)

/-- No pattern containing a non-ASCII character occurs in an ASCII
string. -/
theorem not_infix_of_ascii {s : Str} (hA : asciiStr s) (c : Char)
    {p : Str} (hc : c ∈ p) (h127 : 127 < c.toNat) : ¬ p <:+: s :=
  not_infix_of_not_mem c hc (fun hm => absurd (hA c hm) (by omega))

/-- On an ASCII string free of the mangled needle, the substitution step
of `llm_answer` is the identity: the two quote replacements replace `"`
by itself, and the dash and ellipsis needles are non-ASCII. -/
theorem punctSub_fixed {s : Str} (hA : asciiStr s)
    (hN : ¬ needle1 <:+: s) : punctSub s = s := by
  unfold punctSub
  dsimp only
  rw [replaceStr_no_occ needle1 _ s hN]
  rw [replaceStr_self, replaceStr_self]
  rw [replaceStr_no_occ ("—".data) _ s
    (not_infix_of_ascii hA '—' (by decide) (by decide))]
  rw [replaceStr_no_occ ("–".data) _ s
    (not_infix_of_ascii hA '–' (by decide) (by decide))]
  rw [replaceStr_no_occ ("…".data) _ s
    (not_infix_of_ascii hA '…' (by decide) (by decide))]

/-- `rstrip` returns a prefix of its argument. -/
theorem prefix_rstrip (t : Str) : rstrip t <+: t := by
  unfold rstrip
  rw [← List.reverse_suffix, List.reverse_reverse]
  exact List.dropWhile_suffix _

/-- An occurrence inside `t ++ d` either lies inside `t` or ends with an
element of `d`. -/
theorem infix_append_cases {α : Type} {p t d : List α} (hp : p ≠ [])
    (h : p <:+: (t ++ d)) :
    p <:+: t ∨ ∃ x ∈ d, p.getLast? = some x := by
  obtain ⟨u, v, huv⟩ := h
  have hv : v <:+ t ++ d := ⟨u ++ p, by rw [← huv]⟩
  have hd : d <:+ t ++ d := List.suffix_append t d
  rcases List.suffix_or_suffix_of_suffix hv hd with hvd | hdv
  · obtain ⟨d', hd'⟩ := hvd
    have hup : u ++ p = t ++ d' := by
      have hstep : (u ++ p) ++ v = (t ++ d') ++ v := by
        rw [← hd'] at huv
        simpa [List.append_assoc] using huv
      exact (List.append_inj' hstep rfl).1
    cases d' with
    | nil => exact Or.inl ⟨u, [], by simpa using hup⟩
    | cons a d'' =>
      obtain ⟨x, hx⟩ : ∃ x, (a :: d'').getLast? = some x :=
        ⟨(a :: d'').getLast (by simp), List.getLast?_eq_getLast _ _⟩
      refine Or.inr ⟨x, ?_, ?_⟩
      · obtain ⟨ys, hys⟩ := List.getLast?_eq_some_iff.mp hx
        rw [← hd', hys]
        simp
      · have h1 : (u ++ p).getLast? = p.getLast? := by
          rw [List.getLast?_append]
          cases hpl : p.getLast? with
          | none => exact absurd (List.getLast?_eq_none_iff.mp hpl) hp
          | some y => rfl
        have h2 : (t ++ (a :: d'')).getLast? = (a :: d'').getLast? := by
          rw [List.getLast?_append]
          rw [hx]
          rfl
        rw [← h1, hup, h2, hx]
  · obtain ⟨v', hv'⟩ := hdv
    refine Or.inl ⟨u, v', ?_⟩
    have hstep : (u ++ p ++ v') ++ d = t ++ d := by
      rw [← hv'] at huv
      simpa [List.append_assoc] using huv
    exact (List.append_inj' hstep rfl).1

/-- Appending `...` cannot create an occurrence of the needle, whose last
character is `(`. -/
theorem not_infix_append_dots {t : Str} (h : ¬ needle1 <:+: t) :
    ¬ needle1 <:+: (t ++ ("...".data)) := by
  intro hinf
  rcases infix_append_cases (by decide) hinf with h1 | ⟨x, hx, hlast⟩
  · exact h h1
  · have hl : needle1.getLast? = some '(' := rfl
    rw [hl] at hlast
    obtain rfl := Option.some.inj hlast.symm
    exact absurd hx (by decide)

/-- C9 (amended): `sanitize` is idempotent on ASCII strings that contain
no occurrence of the mangled replacement needle, provided `maxChars ≤ 0`
or `maxChars ≥ 10`.  As stated the claim fails twice over: for
`0 < maxChars < 10` the negative Python slice makes repeated truncation
shrink the string again, and the first `.replace` of the source has a
pure-ASCII needle whose replacement can create a fresh occurrence — see
the counterexample theorem. -/
theorem sanitize_idempotent (s : Str) (m : Int) (hA : asciiStr s)
    (hN : ¬ needle1 <:+: s) (hm : m ≤ 0 ∨ 10 ≤ m) :
    sanitize (sanitize s m) m = sanitize s m := by
  have hps : punctSub s = s := punctSub_fixed hA hN
  by_cases hcond : m > 0 ∧ ((punctSub s).length : Int) > m
  · have h10 : 10 ≤ m := by
      rcases hm with hm | hm
      · exact absurd hcond.1 (by omega)
      · exact hm
    have heq : sanitize s m =
        rstrip (pyTake (m - 10) (punctSub s)) ++ ("...".data) := by
      unfold sanitize
      rw [if_pos hcond]
    have hpyt : pyTake (m - 10) (punctSub s) = (punctSub s).take (m - 10).toNat := by
      unfold pyTake
      rw [if_neg (by omega)]
    have hpref : rstrip (pyTake (m - 10) (punctSub s)) <+: s := by
      rw [hpyt, hps]
      exact (prefix_rstrip _).trans ( List.take_prefix _ _)
    have hA_r : asciiStr (rstrip (pyTake (m - 10) (punctSub s)) ++ ("...".data)) := by
      intro c hc
      rcases List.mem_append.mp hc with hc | hc
      · exact hA c (hpref.sublist.subset hc)
      · have : c = '.' := by simpa using hc
        subst this
        decide
    have hN_r : ¬ needle1 <:+: (rstrip (pyTake (m - 10) (punctSub s)) ++ ("...".data)) := by
      apply not_infix_append_dots
      intro hinf
      exact hN (hinf.trans hpref.isInfix)
    have hlen_r : (((rstrip (pyTake (m - 10) (punctSub s)) ++ ("...".data)).length : Int)) ≤ m := by
      rw [List.length_append]
      have hr : (rstrip (pyTake (m - 10) (punctSub s))).length ≤
          (pyTake (m - 10) (punctSub s)).length := rstrip_length_le _
      have ht : (pyTake (m - 10) (punctSub s)).length ≤ (m - 10).toNat := by
        rw [hpyt]
        exact List.length_take_le _ _
      have hdots : ("...".data).length = 3 := rfl
      rw [hdots]
      omega
    have hps_r : punctSub (rstrip (pyTake (m - 10) (punctSub s)) ++ ("...".data)) =
        rstrip (pyTake (m - 10) (punctSub s)) ++ ("...".data) :=
      punctSub_fixed hA_r hN_r
    rw [heq]
    unfold sanitize
    rw [if_neg]
    · exact hps_r
    · rintro ⟨_, h2⟩
      rw [hps_r] at h2
      omega
  · have heq : sanitize s m = s := by
      unfold sanitize
      rw [if_neg hcond]
      exact hps
    rw [heq]
    exact heq

/-- Counterexample to C9 as stated: two ASCII inputs where a second
`sanitize` changes the result — repeated truncation with `maxChars = 3`,
and (with no truncation at all) an input whose first replacement creates
a fresh occurrence of the needle. -/
theorem sanitize_idempotent_counterexample :
    (asciiStr (List.replicate 20 'a') ∧
      sanitize (sanitize (List.replicate 20 'a') 3) 3 ≠
        sanitize (List.replicate 20 'a') 3) ∧
    (asciiStr needleSeed ∧
      sanitize (sanitize needleSeed 0) 0 ≠ sanitize needleSeed 0) := by
  decide

set_option maxRecDepth 2048 in
/-- Witness for C9 at a concrete input: with `maxChars = 50` a 60-`a`
string is truncated once and a second `sanitize` leaves it unchanged. -/
theorem sanitize_idempotent_witness :
    asciiStr (List.replicate 60 'a') ∧
    sanitize (sanitize (List.replicate 60 'a') 50) 50 =
      sanitize (List.replicate 60 'a') 50 :=
  ⟨by decide,
    sanitize_idempotent (List.replicate 60 'a') 50 (by decide)
      (not_infix_of_not_mem ',' (by decide) (by decide))
      (Or.inr (by decide))⟩

end LlmOverDns
